import Mathlib

/-!
# Verification of the aws-bedrock-log-analytics-rag orchestration layer

Shallow embedding of the cost-aware request orchestration and caching layer
of the repository: the batch embedding Lambda (`src/embedding_lambda`) and
the interactive Streamlit flow (`src/streamlit_app`).

Python texts are modelled as lists of characters (`Text`), embedding vectors
as lists of integers (`Vec`; the numeric payload is opaque to the layer, only
presence/emptiness matters).  External service interactions are modelled by
passing the outcome the service would produce as an argument; each state
carries the list of texts actually sent to the external embedding service, so
"the service was (not) invoked" is expressible.  Logging is an output-only
I/O effect without influence on control flow and is not part of the state.
-/

/-- Model of a Python `str`: a sequence of characters. -/
abbrev Text := List Char

/-- Model of an embedding vector (`List[float]` in the source; the layer never
inspects the numbers, only emptiness, so the element type is opaque). -/
abbrev Vec := List Int

/-- Outcome of one call to `bedrock_runtime.invoke_model` plus response
parsing, as observed by either variant's embedding client: either the parsed
body's `embedding` field (`response_body.get('embedding')`, which is `None`
when the field is missing), or one of the exception classes the sources
catch.  (The interactive variant has no dedicated `BotoCoreError` branch; its
bare `except Exception` swallows those too, so the same outcome type serves
both.) -/
inductive InvokeOutcome where
  | success (embedding : Option Vec)
  | clientError (code msg : String)
  | botoCoreError (msg : String)
  | otherError (ty msg : String)
deriving DecidableEq, Repr

/-- `True` for the exception outcomes. -/
def InvokeOutcome.isError : InvokeOutcome → Bool
  | .success _ => false
  | .clientError _ _ => true
  | .botoCoreError _ => true
  | .otherError _ _ => true

namespace EmbeddingLambda

/-- Configuration of the embedding Lambda (`src/embedding_lambda/config.py`),
restricted to the settings that the orchestration logic reads. -/
structure Config where
  maxTextLength : Nat
  batchSize : Nat
  enableCaching : Bool
  enableCostTracking : Bool
  maxTokensPerExecution : Nat
  bedrockModelId : String

/-- Mutable state of one Lambda invocation: the module-level embedding cache
(`embedding_cache`, an insertion-ordered association list standing for the
Python dict) and the `CostTracker` counters, plus the trace of texts sent to
the external embedding service. -/
structure LambdaState where
  cache : List (String × Option Vec)
  totalTokensProcessed : Nat
  totalEmbeddingsGenerated : Nat
  totalApiCalls : Nat
  failedRequests : Nat
  invokedTexts : List Text
deriving DecidableEq, Repr

/-- The state at the start of a Lambda execution. -/
def initState : LambdaState :=
  { cache := [], totalTokensProcessed := 0, totalEmbeddingsGenerated := 0,
    totalApiCalls := 0, failedRequests := 0, invokedTexts := [] }

/-- `CostTracker.track_embedding_request` (`src/embedding_lambda/logger.py`
lines 68-79): no-op when cost tracking is disabled; otherwise adds the text
length to tokens processed, bumps the call counter, and bumps the success or
failure counter. -/
def CostTracker.track_embedding_request (cfg : Config) (textLength : Nat)
    (success : Bool) (s : LambdaState) : LambdaState :=
  if !cfg.enableCostTracking then s
  else
    { s with
      totalTokensProcessed := s.totalTokensProcessed + textLength
      totalApiCalls := s.totalApiCalls + 1
      totalEmbeddingsGenerated :=
        if success then s.totalEmbeddingsGenerated + 1 else s.totalEmbeddingsGenerated
      failedRequests := if success then s.failedRequests else s.failedRequests + 1 }

/-- `CostTracker.check_cost_limits` (`src/embedding_lambda/logger.py` lines
81-93): `True` when tracking is disabled; otherwise `False` exactly when the
cumulative token count strictly exceeds the execution budget. -/
def CostTracker.check_cost_limits (cfg : Config) (s : LambdaState) : Bool :=
  if !cfg.enableCostTracking then true
  else if cfg.maxTokensPerExecution < s.totalTokensProcessed then false
  else true

/-- Dict lookup `embedding_cache[cache_key]` combined with the membership test
`cache_key in embedding_cache`. -/
def lookupCache (c : List (String × Option Vec)) (k : String) : Option (Option Vec) :=
  (c.find? (fun e => e.1 == k)).map (·.2)

/-- The truncation step of `generate_embedding` (`main.py` lines 37-38):
`text[:MAX_TEXT_LENGTH]` applied only when `len(text) > MAX_TEXT_LENGTH`. -/
def truncText (cfg : Config) (t : Text) : Text :=
  if cfg.maxTextLength < t.length then t.take cfg.maxTextLength else t

/-- `generate_embedding` (`src/embedding_lambda/main.py` lines 34-124).
`outcome` is what the external embedding invocation would yield if it is
reached.  Returns the Python return value (`None` mapped to `none`) together
with the updated module state.  Every non-success outcome corresponds to an
`except` branch of the source: the error is swallowed, a failed usage event is
recorded, and `None` is returned. -/
def generate_embedding (cfg : Config) (hashFn : Text → String)
    (outcome : InvokeOutcome) (text0 : Text) (s : LambdaState) :
    Option Vec × LambdaState :=
  let text := truncText cfg text0
  let cacheKey : Option String :=
    if cfg.enableCaching then some (hashFn text) else none
  let hit : Option (Option Vec) :=
    match cacheKey with
    | some k => lookupCache s.cache k
    | none => none
  match hit with
  | some v => (v, CostTracker.track_embedding_request cfg text.length true s)
  | none =>
    if !CostTracker.check_cost_limits cfg s then (none, s)
    else
      let s1 := { s with invokedTexts := s.invokedTexts ++ [text] }
      match outcome with
      | .success emb =>
        let s2 := CostTracker.track_embedding_request cfg text.length true s1
        let s3 :=
          match cacheKey with
          | some k =>
            if cfg.enableCaching && !(k == "") then { s2 with cache := (k, emb) :: s2.cache }
            else s2
          | none => s2
        (emb, s3)
      | .clientError _ _ => (none, CostTracker.track_embedding_request cfg text.length false s1)
      | .botoCoreError _ => (none, CostTracker.track_embedding_request cfg text.length false s1)
      | .otherError _ _ => (none, CostTracker.track_embedding_request cfg text.length false s1)

/-- Python truthiness of the value returned by `generate_embedding`, as used
by `if embedding:` in `lambda_handler` (line 160): `None` and the empty list
are falsy, a non-empty list is truthy. -/
def pyTruthy : Option Vec → Bool
  | none => false
  | some v => !v.isEmpty

/-- A log record (`Dict[str, Any]`): the four fields the handler reads, the
three fields it may add, and an opaque remainder that is passed through
untouched. -/
structure LogRecord where
  message : Text
  service : Text
  user_id : Text
  level : Text
  rest : List (String × String)
  log_embedding : Option Vec := none
  embedding_model : Option String := none
  embedding_timestamp : Option Nat := none
deriving DecidableEq, Repr

/-- Python `str.strip`: drop leading and trailing whitespace. -/
def stripText (t : Text) : Text :=
  ((t.dropWhile Char.isWhitespace).reverse.dropWhile Char.isWhitespace).reverse

/-- The composite text `f"{log_services} {log_user_id} {log_level} {log_message}".strip()`
built at `main.py` line 157 (the rendering of the `service` field is folded
into `LogRecord.service`). -/
def compositeText (r : LogRecord) : Text :=
  stripText (r.service ++ [' '] ++ r.user_id ++ [' '] ++ r.level ++ [' '] ++ r.message)

/-- The three fields added on success (`main.py` lines 162-164). -/
def annotateRecord (cfg : Config) (now : Nat) (v : Vec) (r : LogRecord) : LogRecord :=
  { r with log_embedding := some v, embedding_model := some cfg.bedrockModelId,
           embedding_timestamp := some now }

/-- Behaviour of the processing of one record inside the handler's `try`
block: either no exception is raised and the embedding invocation (if reached)
yields `invoke`, or some exception is raised while assembling/processing the
record (the `except Exception` branch at `main.py` lines 178-188). -/
inductive RecordOutcome where
  | ok (invoke : InvokeOutcome)
  | exn (msg : String)
deriving DecidableEq, Repr

/-- One iteration of the handler's inner record loop (`main.py` lines
151-188): returns the record appended to `processed_records`, whether the
success counter was bumped, and the updated state. -/
def processRecord (cfg : Config) (hashFn : Text → String) (now : Nat)
    (beh : RecordOutcome) (r : LogRecord) (s : LambdaState) :
    LogRecord × Bool × LambdaState :=
  match beh with
  | .exn _ => (r, false, s)
  | .ok invoke =>
    let res := generate_embedding cfg hashFn invoke (compositeText r) s
    match res.1 with
    | some v =>
      if v.isEmpty then (r, false, res.2)
      else (annotateRecord cfg now v r, true, res.2)
    | none => (r, false, res.2)

/-- Result of the record loop: the `processed_records` list, the
`successful_embeddings` and `failed_embeddings` counters, and the final
module state. -/
structure LoopOut where
  events : List LogRecord
  successful : Nat
  failed : Nat
  state : LambdaState
deriving DecidableEq, Repr

/-- The handler's inner loop over a list of records, threading the global
record index (`i + record_index`) used only for logging. -/
def runLoop (cfg : Config) (hashFn : Text → String) (now : Nat)
    (beh : Nat → RecordOutcome) : List LogRecord → Nat → LambdaState → LoopOut
  | [], _, s => { events := [], successful := 0, failed := 0, state := s }
  | r :: rs, i, s =>
    let step := processRecord cfg hashFn now (beh i) r s
    let rest := runLoop cfg hashFn now beh rs (i + 1) step.2.2
    { events := step.1 :: rest.events
      successful := (if step.2.1 then 1 else 0) + rest.successful
      failed := (if step.2.1 then 0 else 1) + rest.failed
      state := rest.state }

/-- Helper for `chunkList`: structural recursion on a fuel bound (any
`fuel ≥ l.length` yields the slices of the `range(0, len(records), batch_size)`
loop, since each step consumes at least one element when `bs > 0`). -/
def chunkAux (bs : Nat) : Nat → List LogRecord → List (List LogRecord)
  | _, [] => []
  | 0, _ :: _ => []
  | fuel + 1, x :: xs => ((x :: xs).take bs) :: chunkAux bs fuel ((x :: xs).drop bs)

/-- `records[i:i+batch_size]` chunking of the outer loop (`main.py` lines
149-150): the slices taken at `i = 0, bs, 2*bs, ...`. -/
def chunkList (bs : Nat) (l : List LogRecord) : List (List LogRecord) :=
  if bs = 0 then [] else chunkAux bs l.length l

/-- The outer chunk loop of the handler, processing each chunk with the inner
record loop and advancing the global index by the chunk length. -/
def runChunks (cfg : Config) (hashFn : Text → String) (now : Nat)
    (beh : Nat → RecordOutcome) : List (List LogRecord) → Nat → LambdaState → LoopOut
  | [], _, s => { events := [], successful := 0, failed := 0, state := s }
  | c :: cs, i, s =>
    let first := runLoop cfg hashFn now beh c i s
    let rest := runChunks cfg hashFn now beh cs (i + c.length) first.state
    { events := first.events ++ rest.events
      successful := first.successful + rest.successful
      failed := first.failed + rest.failed
      state := rest.state }

/-- `lambda_handler` (`src/embedding_lambda/main.py` lines 126-202): computes
the batch size (`min(BATCH_SIZE, len(records))` when records are present, else
`1`, then clamped to at least `1`), runs the chunked record loop, and returns
the `{"events": processed_records}` payload together with the counters. -/
def lambda_handler (cfg : Config) (hashFn : Text → String) (now : Nat)
    (beh : Nat → RecordOutcome) (records : List LogRecord) (s : LambdaState) : LoopOut :=
  let bs0 := if records.isEmpty then 1 else min cfg.batchSize records.length
  let bs := max 1 bs0
  runChunks cfg hashFn now beh (chunkList bs records) 0 s

/-- Replaying a list of `(text_length, success)` tracking calls against the
tracker, in order. -/
def applyTracks (cfg : Config) (tracks : List (Nat × Bool)) (s : LambdaState) : LambdaState :=
  tracks.foldl (fun st t => CostTracker.track_embedding_request cfg t.1 t.2 st) s

/-- Test fixtures used by the concrete witnesses below. -/
def tCfg : Config :=
  { maxTextLength := 50, batchSize := 2, enableCaching := true,
    enableCostTracking := true, maxTokensPerExecution := 1000,
    bedrockModelId := "titan" }

def tRec : LogRecord :=
  { message := ['e', 'r', 'r'], service := ['a'], user_id := ['u'],
    level := ['E'], rest := [("host", "h1")] }

def tHash : Text → String := fun t => String.mk t

end EmbeddingLambda

namespace StreamlitApp

/-- Configuration of the Streamlit app (`src/streamlit_app/config.py`),
restricted to the settings the modelled logic reads. -/
structure AppConfig where
  maxQueryLength : Nat
  enableCostTracking : Bool
  maxTokensPerSession : Nat
  maxRequestsPerHour : Nat
  enableQueryCaching : Bool

/-- Session state touched by the modelled interactive logic
(`st.session_state.cost_metrics` counters plus the trace of texts sent to the
external embedding service; the monetary `estimated_cost` float is an output
derived from the counters and not modelled). -/
structure AppState where
  totalQueries : Nat
  totalTokensProcessed : Nat
  totalEmbeddingsGenerated : Nat
  hourlyRequests : List Nat
  invokedTexts : List Text
deriving DecidableEq, Repr

/-- Fresh session state. -/
def initState : AppState :=
  { totalQueries := 0, totalTokensProcessed := 0, totalEmbeddingsGenerated := 0,
    hourlyRequests := [], invokedTexts := [] }

/-- `datetime.now().replace(minute=0, second=0, microsecond=0)`: truncation of
an epoch-second timestamp to the start of its hour. -/
def truncHour (t : Nat) : Nat := t / 3600 * 3600

/-- `CostTracker.track_query` (`src/streamlit_app/logger.py` lines 89-112):
appends the current (hour-truncated) timestamp to the rolling window and
prunes entries older than 24 hours.  The query length argument is only
logged. -/
def CostTracker.track_query (cfg : AppConfig) (now : Nat) (queryLength : Nat)
    (s : AppState) : AppState :=
  if !cfg.enableCostTracking then s
  else
    let currentHour := truncHour now
    let reqs := s.hourlyRequests ++ [currentHour]
    let cutoff := currentHour - 24 * 3600
    { s with totalQueries := s.totalQueries + 1
             hourlyRequests := reqs.filter (fun r => decide (cutoff ≤ r)) }

/-- `CostTracker.track_embedding_request` (`src/streamlit_app/logger.py`
lines 114-125): adds the text length to tokens processed and bumps the
embeddings counter; no-op when cost tracking is disabled. -/
def CostTracker.track_embedding_request (cfg : AppConfig) (textLength : Nat)
    (s : AppState) : AppState :=
  if !cfg.enableCostTracking then s
  else
    { s with totalTokensProcessed := s.totalTokensProcessed + textLength
             totalEmbeddingsGenerated := s.totalEmbeddingsGenerated + 1 }

/-- `CostTracker.check_rate_limits` (`src/streamlit_app/logger.py` lines
147-178): `True` when tracking is disabled; otherwise `False` when the count
of window entries at or after `current_hour - 1 hour` reaches the hourly
ceiling, then `False` when the session token count strictly exceeds the
session budget, else `True`. -/
def CostTracker.check_rate_limits (cfg : AppConfig) (now : Nat) (s : AppState) : Bool :=
  if !cfg.enableCostTracking then true
  else
    let currentHour := truncHour now
    let recent := s.hourlyRequests.filter (fun r => decide (currentHour - 3600 ≤ r))
    if cfg.maxRequestsPerHour ≤ recent.length then false
    else if cfg.maxTokensPerSession < s.totalTokensProcessed then false
    else true

/-- `get_embedding` (`src/streamlit_app/app.py` lines 79-121): rejects empty
or whitespace-only text before any tracking or invocation (`not text or not
text.strip()`); otherwise tracks the request, invokes the external embedding
service with the text exactly as given (no truncation, no cache), and
swallows every service error into an absent result. -/
def get_embedding (cfg : AppConfig) (outcome : InvokeOutcome) (text : Text)
    (s : AppState) : Option Vec × AppState :=
  if text.isEmpty || text.all Char.isWhitespace then (none, s)
  else
    let s1 := CostTracker.track_embedding_request cfg text.length s
    let s2 := { s1 with invokedTexts := s1.invokedTexts ++ [text] }
    match outcome with
    | .success emb => (emb, s2)
    | .clientError _ _ => (none, s2)
    | .botoCoreError _ => (none, s2)
    | .otherError _ _ => (none, s2)

/-- `search_logs` (`src/streamlit_app/app.py` lines 123-144): an absent query
vector short-circuits to `[]`; otherwise the OpenSearch response's message
list is returned, with any search exception swallowed into `[]`. -/
def search_logs (queryVector : Option Vec) (response : Except String (List String)) :
    List String :=
  match queryVector with
  | none => []
  | some _ =>
    match response with
    | .ok msgs => msgs
    | .error _ => []

/-- User-visible UI effects of the "Get Answer" button flow. -/
inductive UIAction where
  | warnEnterQuestion
  | writeStep (n : Nat)
  | warnNoLogs
  | showAnswer (logsCount : Nat)
deriving DecidableEq, Repr

/-- The "Get Answer" button handler (`src/streamlit_app/app.py` lines
187-210): `if user_question:` is Python truthiness, so only the *empty*
question takes the warning branch; any non-empty question (whitespace-only
included) proceeds through embed, search, and answer/no-logs. -/
def get_answer_handler (cfg : AppConfig) (outcome : InvokeOutcome)
    (searchResponse : Except String (List String)) (question : Text)
    (s : AppState) : List UIAction × AppState :=
  if question.isEmpty then ([UIAction.warnEnterQuestion], s)
  else
    let emb := get_embedding cfg outcome question s
    let logs := search_logs emb.1 searchResponse
    if logs.isEmpty then
      ([UIAction.writeStep 1, UIAction.writeStep 2, UIAction.warnNoLogs], emb.2)
    else
      ([UIAction.writeStep 1, UIAction.writeStep 2, UIAction.writeStep 3,
        UIAction.showAnswer logs.length], emb.2)

/-- One cached query result: insertion timestamp plus payload
(`{'timestamp': ..., 'data': ...}` in the source). -/
structure QEntry (α : Type) where
  timestamp : Nat
  data : α
deriving DecidableEq, Repr

/-- The session query cache `st.session_state.query_cache`: a Python dict,
modelled as an insertion-ordered association list with unique keys. -/
abbrev QCache (α : Type) := List (String × QEntry α)

/-- Dict read `cache.get(k)`. -/
def dictGet {α : Type} (c : QCache α) (k : String) : Option (QEntry α) :=
  (c.find? (fun e => e.1 == k)).map (·.2)

/-- Dict write `cache[k] = e`: updates in place when the key exists (keeping
its position, as Python dicts do), otherwise appends at the end. -/
def dictSet {α : Type} : QCache α → String → QEntry α → QCache α
  | [], k, e => [(k, e)]
  | (k', e') :: rest, k, e =>
    if k' == k then (k', e) :: rest else (k', e') :: dictSet rest k e

/-- `min(cache.keys(), key=lambda k: cache[k]['timestamp'])` together with its
entry: the first entry (in insertion order) whose timestamp is minimal, which
is exactly what Python's `min` returns on ties. -/
def oldestEntry {α : Type} (c : QCache α) : Option (String × QEntry α) :=
  c.find? (fun e => c.all (fun e' => e.2.timestamp ≤ e'.2.timestamp))

/-- `QueryCache.get_cache_key` (`src/streamlit_app/logger.py` lines 235-237):
`f"{hash(query)}_{search_size}"`.  `pyHash` stands for Python's built-in
string hash for the running process (CPython: 64-bit SipHash with a
process-random seed), passed as a parameter since only its determinism within
one process is known. -/
def QueryCache.get_cache_key (pyHash : String → Int) (query : String)
    (searchSize : Nat) : String :=
  (pyHash query).repr ++ "_" ++ Nat.repr searchSize

/-- `QueryCache.get` (`src/streamlit_app/logger.py` lines 239-256): bypass
when query caching is disabled; a hit younger than 300 seconds returns the
payload; an entry aged 300 seconds or more is deleted and absent is
returned. -/
def QueryCache.get {α : Type} (cfg : AppConfig) (pyHash : String → Int)
    (now : Nat) (query : String) (searchSize : Nat) (c : QCache α) :
    Option α × QCache α :=
  if !cfg.enableQueryCaching then (none, c)
  else
    let k := QueryCache.get_cache_key pyHash query searchSize
    match dictGet c k with
    | some e =>
      if now - e.timestamp < 300 then (some e.data, c)
      else (none, c.eraseP (fun e' => e'.1 == k))
    | none => (none, c)

/-- `QueryCache.set` (`src/streamlit_app/logger.py` lines 258-277): bypass
when query caching is disabled; otherwise store under the derived key, then,
if the dict now holds more than 50 entries, delete the entry with the oldest
insertion timestamp.  (`oldestEntry` is `none` only on an empty dict, which
cannot have more than 50 entries; the fallthrough mirrors that
unreachability harmlessly.) -/
def QueryCache.set {α : Type} (cfg : AppConfig) (pyHash : String → Int)
    (now : Nat) (query : String) (searchSize : Nat) (result : α)
    (c : QCache α) : QCache α :=
  if !cfg.enableQueryCaching then c
  else
    let k := QueryCache.get_cache_key pyHash query searchSize
    let c1 := dictSet c k { timestamp := now, data := result }
    if 50 < c1.length then
      match oldestEntry c1 with
      | some e => c1.eraseP (fun e' => e'.1 == e.1)
      | none => c1
    else c1

/-- The 64-bit value range of CPython's built-in `hash` on a 64-bit platform
(its result always fits a machine word). -/
def hashRange : Finset Int := Finset.Icc (-(2 ^ 63)) (2 ^ 63 - 1)

/-- Claim C9 as stated, as a proposition over the embedded
`QueryCache.get_cache_key`: for every admissible process hash function,
distinct (query, size) pairs always derive distinct cache keys. -/
def cacheKeyAlwaysDistinct : Prop :=
  ∀ pyHash : String → Int, (∀ t : String, pyHash t ∈ hashRange) →
    ∀ q1 q2 : String, ∀ sz1 sz2 : Nat, (q1 ≠ q2 ∨ sz1 ≠ sz2) →
      QueryCache.get_cache_key pyHash q1 sz1 ≠ QueryCache.get_cache_key pyHash q2 sz2

/-- Closed form of `Nat.repr`'s character list, used to reason about cache-key
strings: `['0']` for zero, otherwise the base-10 digits (most significant
first) rendered through `Nat.digitChar`. -/
def decChars (n : Nat) : List Char :=
  if n = 0 then ['0'] else ((Nat.digits 10 n).map Nat.digitChar).reverse

/-- Test fixtures for the interactive-side witnesses. -/
def aCfg : AppConfig :=
  { maxQueryLength := 500, enableCostTracking := true,
    maxTokensPerSession := 1000, maxRequestsPerHour := 1,
    enableQueryCaching := true }

def aHash : String → Int := fun q => (q.length : Int)

/-- Fixture with a small configured maximum query length, for exercising the
(missing) truncation of the interactive embedding client. -/
def cCfg : AppConfig :=
  { maxQueryLength := 2, enableCostTracking := true,
    maxTokensPerSession := 1000, maxRequestsPerHour := 100,
    enableQueryCaching := true }

end StreamlitApp

namespace EmbeddingLambda

@[simp] theorem runLoop_nil (cfg : Config) (hashFn : Text → String) (now : Nat)
    (beh : Nat → RecordOutcome) (i : Nat) (s : LambdaState) :
    runLoop cfg hashFn now beh [] i s =
      { events := [], successful := 0, failed := 0, state := s } := rfl

theorem runLoop_cons (cfg : Config) (hashFn : Text → String) (now : Nat)
    (beh : Nat → RecordOutcome) (r : LogRecord) (rs : List LogRecord)
    (i : Nat) (s : LambdaState) :
    runLoop cfg hashFn now beh (r :: rs) i s =
      { events := (processRecord cfg hashFn now (beh i) r s).1 ::
          (runLoop cfg hashFn now beh rs (i + 1)
            (processRecord cfg hashFn now (beh i) r s).2.2).events
        successful := (if (processRecord cfg hashFn now (beh i) r s).2.1 then 1 else 0) +
          (runLoop cfg hashFn now beh rs (i + 1)
            (processRecord cfg hashFn now (beh i) r s).2.2).successful
        failed := (if (processRecord cfg hashFn now (beh i) r s).2.1 then 0 else 1) +
          (runLoop cfg hashFn now beh rs (i + 1)
            (processRecord cfg hashFn now (beh i) r s).2.2).failed
        state := (runLoop cfg hashFn now beh rs (i + 1)
          (processRecord cfg hashFn now (beh i) r s).2.2).state } := rfl

theorem runLoop_append (cfg : Config) (hashFn : Text → String) (now : Nat)
    (beh : Nat → RecordOutcome) (l1 l2 : List LogRecord) :
    ∀ i s, runLoop cfg hashFn now beh (l1 ++ l2) i s =
      { events := (runLoop cfg hashFn now beh l1 i s).events ++
          (runLoop cfg hashFn now beh l2 (i + l1.length)
            (runLoop cfg hashFn now beh l1 i s).state).events
        successful := (runLoop cfg hashFn now beh l1 i s).successful +
          (runLoop cfg hashFn now beh l2 (i + l1.length)
            (runLoop cfg hashFn now beh l1 i s).state).successful
        failed := (runLoop cfg hashFn now beh l1 i s).failed +
          (runLoop cfg hashFn now beh l2 (i + l1.length)
            (runLoop cfg hashFn now beh l1 i s).state).failed
        state := (runLoop cfg hashFn now beh l2 (i + l1.length)
          (runLoop cfg hashFn now beh l1 i s).state).state } := by
  induction l1 with
  | nil => intro i s; simp
  | cons r rs ih =>
    intro i s
    rw [List.cons_append, runLoop_cons, ih, runLoop_cons]
    have harith : i + 1 + rs.length = i + (rs.length + 1) := by omega
    simp only [LoopOut.mk.injEq, List.length_cons, harith]
    refine ⟨by simp, by omega, by omega, trivial⟩

theorem runChunks_chunkAux (cfg : Config) (hashFn : Text → String) (now : Nat)
    (beh : Nat → RecordOutcome) (bs : Nat) (hbs : 0 < bs) :
    ∀ fuel l, l.length ≤ fuel → ∀ i s,
      runChunks cfg hashFn now beh (chunkAux bs fuel l) i s =
        runLoop cfg hashFn now beh l i s := by
  intro fuel
  induction fuel with
  | zero =>
    intro l hl i s
    match l, hl with
    | [], _ => simp [chunkAux, runChunks, runLoop]
  | succ fuel ih =>
    intro l hl i s
    match l with
    | [] => simp [chunkAux, runChunks, runLoop]
    | x :: xs =>
      have hlen : ((x :: xs).drop bs).length ≤ fuel := by
        simp only [List.length_drop, List.length_cons]
        simp only [List.length_cons] at hl
        omega
      have htake : ((x :: xs).take bs).length = min bs (x :: xs).length := by
        simp
      rw [chunkAux]
      show runChunks cfg hashFn now beh
          (((x :: xs).take bs) :: chunkAux bs fuel ((x :: xs).drop bs)) i s = _
      rw [runChunks, ih _ hlen]
      conv_rhs => rw [← List.take_append_drop bs (x :: xs), runLoop_append]

/-- The chunked outer loop of `lambda_handler` is the plain record loop. -/
theorem lambda_handler_eq_runLoop (cfg : Config) (hashFn : Text → String) (now : Nat)
    (beh : Nat → RecordOutcome) (records : List LogRecord) (s : LambdaState) :
    lambda_handler cfg hashFn now beh records s =
      runLoop cfg hashFn now beh records 0 s := by
  have key : ∀ bs, 0 < bs →
      runChunks cfg hashFn now beh (chunkList bs records) 0 s =
        runLoop cfg hashFn now beh records 0 s := by
    intro bs hbs
    unfold chunkList
    rw [if_neg (by omega)]
    exact runChunks_chunkAux cfg hashFn now beh bs hbs records.length records le_rfl 0 s
  simp only [lambda_handler]
  exact key _ (Nat.lt_of_lt_of_le Nat.one_pos (Nat.le_max_left 1 _))

/-- Each loop step emits the record itself, annotated or untouched. -/
theorem processRecord_fst (cfg : Config) (hashFn : Text → String) (now : Nat)
    (beh : RecordOutcome) (r : LogRecord) (s : LambdaState) :
    (processRecord cfg hashFn now beh r s).1 = r ∨
      ∃ v, (processRecord cfg hashFn now beh r s).1 = annotateRecord cfg now v r := by
  unfold processRecord
  match beh with
  | .exn m => exact Or.inl rfl
  | .ok invoke =>
    cases hres : (generate_embedding cfg hashFn invoke (compositeText r) s).1 with
    | none => simp [hres]
    | some v =>
      by_cases hv : v.isEmpty
      · simp [hres, hv]
      · simp only [hres]
        right
        exact ⟨v, by simp [hv]⟩

theorem runLoop_events_length (cfg : Config) (hashFn : Text → String) (now : Nat)
    (beh : Nat → RecordOutcome) :
    ∀ (l : List LogRecord) (i : Nat) (s : LambdaState),
      (runLoop cfg hashFn now beh l i s).events.length = l.length := by
  intro l
  induction l with
  | nil => intro i s; simp
  | cons r rs ih => intro i s; rw [runLoop_cons]; simp [ih]

theorem runLoop_events_get (cfg : Config) (hashFn : Text → String) (now : Nat)
    (beh : Nat → RecordOutcome) :
    ∀ (l : List LogRecord) (i : Nat) (s : LambdaState) (j : Nat)
      (h1 : j < (runLoop cfg hashFn now beh l i s).events.length) (h2 : j < l.length),
      (runLoop cfg hashFn now beh l i s).events[j] = l[j] ∨
        ∃ v, (runLoop cfg hashFn now beh l i s).events[j] = annotateRecord cfg now v l[j] := by
  intro l
  induction l with
  | nil => intro i s j h1 h2; exact absurd h2 (by simp)
  | cons r rs ih =>
    intro i s j h1 h2
    match j with
    | 0 =>
      simp only [runLoop_cons, List.getElem_cons_zero]
      simpa using processRecord_fst cfg hashFn now (beh i) r s
    | j + 1 =>
      have h2' : j < rs.length := by simpa using h2
      have h1' : j < (runLoop cfg hashFn now beh rs (i + 1)
          (processRecord cfg hashFn now (beh i) r s).2.2).events.length := by
        rw [runLoop_events_length]; exact h2'
      have := ih (i + 1) (processRecord cfg hashFn now (beh i) r s).2.2 j h1' h2'
      simp only [runLoop_cons, List.getElem_cons_succ]
      simpa using this

theorem track_tokens_mono (cfg : Config) (len : Nat) (suc : Bool) (s : LambdaState) :
    s.totalTokensProcessed ≤
      (CostTracker.track_embedding_request cfg len suc s).totalTokensProcessed := by
  unfold CostTracker.track_embedding_request
  split <;> simp <;> omega

theorem applyTracks_tokens_mono (cfg : Config) (tracks : List (Nat × Bool)) :
    ∀ s : LambdaState,
      s.totalTokensProcessed ≤ (applyTracks cfg tracks s).totalTokensProcessed := by
  induction tracks with
  | nil => intro s; simp [applyTracks]
  | cons t ts ih =>
    intro s
    calc s.totalTokensProcessed
        ≤ (CostTracker.track_embedding_request cfg t.1 t.2 s).totalTokensProcessed :=
          track_tokens_mono cfg t.1 t.2 s
      _ ≤ (applyTracks cfg ts (CostTracker.track_embedding_request cfg t.1 t.2 s)).totalTokensProcessed :=
          ih _
      _ = (applyTracks cfg (t :: ts) s).totalTokensProcessed := rfl

end EmbeddingLambda

namespace EmbeddingLambda

/-- C1: For every input event collection passed to `lambda_handler`, the
output `events` collection contains exactly as many records as the input and
preserves their relative order, regardless of how many individual embedding
calls return absent and how many per-record exceptions occur: every input
record, annotated or not, appears in the output at its original position. -/
theorem c1_lambda_handler_preserves_records (cfg : Config) (hashFn : Text → String)
    (now : Nat) (beh : Nat → RecordOutcome) (records : List LogRecord)
    (s : LambdaState) :
    (lambda_handler cfg hashFn now beh records s).events.length = records.length ∧
    ∀ (j : Nat) (h1 : j < (lambda_handler cfg hashFn now beh records s).events.length)
      (h2 : j < records.length),
      (lambda_handler cfg hashFn now beh records s).events[j] = records[j] ∨
        ∃ v, (lambda_handler cfg hashFn now beh records s).events[j] =
          annotateRecord cfg now v records[j] := by
  simp only [lambda_handler_eq_runLoop]
  exact ⟨runLoop_events_length cfg hashFn now beh records 0 s,
    fun j h1 h2 => runLoop_events_get cfg hashFn now beh records 0 s j h1 h2⟩

/-- Concrete instantiation of `c1_lambda_handler_preserves_records`: a
two-record batch whose second embedding invocation fails. -/
theorem c1_lambda_handler_preserves_records_witness :
    ((lambda_handler tCfg tHash 7
        (fun i => if i = 0 then .ok (.success (some [3])) else .ok (.clientError "Throttling" "x"))
        [tRec, tRec] initState).events.length = 2) ∧
    ((lambda_handler tCfg tHash 7
        (fun i => if i = 0 then .ok (.success (some [3])) else .ok (.clientError "Throttling" "x"))
        [tRec, tRec] initState).events.get ⟨1, by decide⟩ = tRec ∨
      ∃ v, (lambda_handler tCfg tHash 7
        (fun i => if i = 0 then .ok (.success (some [3])) else .ok (.clientError "Throttling" "x"))
        [tRec, tRec] initState).events.get ⟨1, by decide⟩ = annotateRecord tCfg 7 v tRec) := by
  have h := c1_lambda_handler_preserves_records tCfg tHash 7
    (fun i => if i = 0 then .ok (.success (some [3])) else .ok (.clientError "Throttling" "x"))
    [tRec, tRec] initState
  refine ⟨h.1, ?_⟩
  have h2 := h.2 1 (by decide) (by decide)
  simpa [List.get_eq_getElem] using h2

end EmbeddingLambda

namespace EmbeddingLambda

/-- C2: The batch embedding client never raises: for every input text and
every outcome of the external invocation it returns a vector or absent; and
on every error outcome — recognized service error, lower-level transport
error, or any other unexpected exception — it returns absent and records a
failed usage event through the tracker (a no-op there only when cost tracking
is disabled, as the tracker contract specifies). -/
theorem c2_generate_embedding_error_boundary (cfg : Config) (hashFn : Text → String)
    (o : InvokeOutcome) (text : Text) (s : LambdaState)
    (herr : o.isError = true)
    (hmiss : cfg.enableCaching = true →
      lookupCache s.cache (hashFn (truncText cfg text)) = none)
    (hbudget : CostTracker.check_cost_limits cfg s = true) :
    ((generate_embedding cfg hashFn o text s).1 = none ∨
      ∃ v, (generate_embedding cfg hashFn o text s).1 = some v) ∧
    (generate_embedding cfg hashFn o text s).1 = none ∧
    (generate_embedding cfg hashFn o text s).2 =
      CostTracker.track_embedding_request cfg (truncText cfg text).length false
        { s with invokedTexts := s.invokedTexts ++ [truncText cfg text] } := by
  have hmain : (generate_embedding cfg hashFn o text s).1 = none ∧
      (generate_embedding cfg hashFn o text s).2 =
        CostTracker.track_embedding_request cfg (truncText cfg text).length false
          { s with invokedTexts := s.invokedTexts ++ [truncText cfg text] } := by
    unfold generate_embedding
    cases hc : cfg.enableCaching with
    | true =>
      simp only [hc, if_true, hmiss hc, hbudget]
      cases o with
      | success e => simp [InvokeOutcome.isError] at herr
      | clientError c m => exact ⟨rfl, rfl⟩
      | botoCoreError m => exact ⟨rfl, rfl⟩
      | otherError t m => exact ⟨rfl, rfl⟩
    | false =>
      simp only [hc, if_false, hbudget]
      cases o with
      | success e => simp [InvokeOutcome.isError] at herr
      | clientError c m => exact ⟨rfl, rfl⟩
      | botoCoreError m => exact ⟨rfl, rfl⟩
      | otherError t m => exact ⟨rfl, rfl⟩
  exact ⟨Or.inl hmain.1, hmain⟩

/-- Concrete instantiation of `c2_generate_embedding_error_boundary` at a
transport-level error. -/
theorem c2_generate_embedding_error_boundary_witness :
    ((generate_embedding tCfg tHash (.botoCoreError "conn reset") ['h', 'i'] initState).1 = none ∨
      ∃ v, (generate_embedding tCfg tHash (.botoCoreError "conn reset") ['h', 'i'] initState).1 = some v) ∧
    (generate_embedding tCfg tHash (.botoCoreError "conn reset") ['h', 'i'] initState).1 = none ∧
    (generate_embedding tCfg tHash (.botoCoreError "conn reset") ['h', 'i'] initState).2 =
      CostTracker.track_embedding_request tCfg (truncText tCfg ['h', 'i']).length false
        { initState with invokedTexts := initState.invokedTexts ++ [truncText tCfg ['h', 'i']] } :=
  c2_generate_embedding_error_boundary tCfg tHash (.botoCoreError "conn reset")
    ['h', 'i'] initState (by decide) (fun _ => by decide) (by decide)

end EmbeddingLambda

namespace EmbeddingLambda

theorem track_preserves_invokedTexts (cfg : Config) (len : Nat) (suc : Bool)
    (s : LambdaState) :
    (CostTracker.track_embedding_request cfg len suc s).invokedTexts = s.invokedTexts := by
  unfold CostTracker.track_embedding_request
  split <;> rfl

/-- C4: with caching enabled, after a successful first embedding of a text,
a repeat call with the same text (hence identical post-truncation text)
returns the same vector from the cache with no new external invocation —
whatever the external service would have produced the second time — and the
cache hit is tracked as one successful usage event. -/
theorem c4_generate_embedding_cache_hit (cfg : Config) (hashFn : Text → String)
    (text : Text) (s : LambdaState) (v : Vec)
    (hcache : cfg.enableCaching = true)
    (hkey : hashFn (truncText cfg text) ≠ "")
    (hmiss : lookupCache s.cache (hashFn (truncText cfg text)) = none)
    (hbudget : CostTracker.check_cost_limits cfg s = true) :
    (generate_embedding cfg hashFn (.success (some v)) text s).1 = some v ∧
    ∀ o2 : InvokeOutcome,
      generate_embedding cfg hashFn o2 text
          (generate_embedding cfg hashFn (.success (some v)) text s).2 =
        (some v, CostTracker.track_embedding_request cfg (truncText cfg text).length true
          (generate_embedding cfg hashFn (.success (some v)) text s).2) ∧
      (generate_embedding cfg hashFn o2 text
          (generate_embedding cfg hashFn (.success (some v)) text s).2).2.invokedTexts =
        (generate_embedding cfg hashFn (.success (some v)) text s).2.invokedTexts := by
  have hbeq : (hashFn (truncText cfg text) == "") = false := by
    exact beq_eq_false_iff_ne.mpr hkey
  have hhitlemma : ∀ (o : InvokeOutcome) (s' : LambdaState) (w : Option Vec),
      lookupCache s'.cache (hashFn (truncText cfg text)) = some w →
      generate_embedding cfg hashFn o text s' =
        (w, CostTracker.track_embedding_request cfg (truncText cfg text).length true s') := by
    intro o s' w hhit
    unfold generate_embedding
    simp only [hcache, if_true, hhit]
  have hfirst : generate_embedding cfg hashFn (.success (some v)) text s =
      (some v,
        { CostTracker.track_embedding_request cfg (truncText cfg text).length true
            { s with invokedTexts := s.invokedTexts ++ [truncText cfg text] } with
          cache := (hashFn (truncText cfg text), some v) ::
            (CostTracker.track_embedding_request cfg (truncText cfg text).length true
              { s with invokedTexts := s.invokedTexts ++ [truncText cfg text] }).cache }) := by
    unfold generate_embedding
    simp only [hcache, if_true, hmiss, hbudget, hbeq, Bool.and_true, Bool.not_false,
      Bool.not_true, Bool.and_false, Bool.false_eq_true, if_false]
  have hhit : lookupCache (generate_embedding cfg hashFn (.success (some v)) text s).2.cache
      (hashFn (truncText cfg text)) = some (some v) := by
    rw [hfirst]
    simp [lookupCache, List.find?]
  refine ⟨by rw [hfirst], fun o2 => ?_⟩
  have hsecond := hhitlemma o2 (generate_embedding cfg hashFn (.success (some v)) text s).2
    (some v) hhit
  exact ⟨hsecond, by rw [hsecond, track_preserves_invokedTexts]⟩

/-- Concrete instantiation of `c4_generate_embedding_cache_hit`: the second
call returns the first call's vector even though the service would now fail,
and the invocation trace does not grow. -/
theorem c4_generate_embedding_cache_hit_witness :
    (generate_embedding tCfg tHash (.success (some [2, 9])) ['l', 'o', 'g'] initState).1 = some [2, 9] ∧
    (generate_embedding tCfg tHash (.clientError "Throttling" "x") ['l', 'o', 'g']
        (generate_embedding tCfg tHash (.success (some [2, 9])) ['l', 'o', 'g'] initState).2 =
      (some [2, 9], CostTracker.track_embedding_request tCfg (truncText tCfg ['l', 'o', 'g']).length true
        (generate_embedding tCfg tHash (.success (some [2, 9])) ['l', 'o', 'g'] initState).2)) ∧
    (generate_embedding tCfg tHash (.clientError "Throttling" "x") ['l', 'o', 'g']
        (generate_embedding tCfg tHash (.success (some [2, 9])) ['l', 'o', 'g'] initState).2).2.invokedTexts =
      (generate_embedding tCfg tHash (.success (some [2, 9])) ['l', 'o', 'g'] initState).2.invokedTexts := by
  have h := c4_generate_embedding_cache_hit tCfg tHash ['l', 'o', 'g'] initState [2, 9]
    (by decide) (by decide) (by decide) (by decide)
  exact ⟨h.1, (h.2 (.clientError "Throttling" "x")).1, (h.2 (.clientError "Throttling" "x")).2⟩

end EmbeddingLambda

namespace EmbeddingLambda

/-- C7: with cost tracking enabled, once the cumulative tracked token count
exceeds the per-execution budget, `check_cost_limits` returns `False` after
every further sequence of tracking calls (the counters only grow, and nothing
resets them within an execution); and `check_cost_limits` returns `True`
whenever cost tracking is disabled. -/
theorem c7_check_cost_limits_latches (cfg : Config) (s : LambdaState) :
    (cfg.enableCostTracking = false →
      ∀ s' : LambdaState, CostTracker.check_cost_limits cfg s' = true) ∧
    (cfg.enableCostTracking = true →
      cfg.maxTokensPerExecution < s.totalTokensProcessed →
      ∀ tracks : List (Nat × Bool),
        CostTracker.check_cost_limits cfg (applyTracks cfg tracks s) = false) := by
  constructor
  · intro hoff s'
    unfold CostTracker.check_cost_limits
    simp [hoff]
  · intro hon hover tracks
    have hmono := applyTracks_tokens_mono cfg tracks s
    unfold CostTracker.check_cost_limits
    simp only [hon, Bool.not_true, Bool.false_eq_true, if_false]
    rw [if_pos (by omega)]

/-- Concrete instantiation of `c7_check_cost_limits_latches`: an exceeded
tracker stays exceeded across two further tracking calls. -/
theorem c7_check_cost_limits_latches_witness :
    CostTracker.check_cost_limits tCfg
      (applyTracks tCfg [(5, true), (40, false)]
        { initState with totalTokensProcessed := 1200 }) = false := by
  exact (c7_check_cost_limits_latches tCfg
    { initState with totalTokensProcessed := 1200 }).2 rfl (by decide) [(5, true), (40, false)]

/-- C10: `lambda_handler` annotates a record only when `generate_embedding`'s
value is Python-truthy: a present-but-falsy value (`some []`, e.g. a response
lacking an `embedding` field would give `none`, an empty list gives
`some []`) leaves the record unannotated and counted as failed, exactly as an
absent result does. -/
theorem c10_falsy_embedding_not_annotated (cfg : Config) (hashFn : Text → String)
    (now : Nat) (invoke : InvokeOutcome) (r : LogRecord) (s : LambdaState)
    (hfal : pyTruthy (generate_embedding cfg hashFn invoke (compositeText r) s).1 = false) :
    processRecord cfg hashFn now (.ok invoke) r s =
      (r, false, (generate_embedding cfg hashFn invoke (compositeText r) s).2) ∧
    lambda_handler cfg hashFn now (fun _ => .ok invoke) [r] s =
      { events := [r], successful := 0, failed := 1,
        state := (generate_embedding cfg hashFn invoke (compositeText r) s).2 } := by
  have hproc : processRecord cfg hashFn now (.ok invoke) r s =
      (r, false, (generate_embedding cfg hashFn invoke (compositeText r) s).2) := by
    unfold processRecord
    cases hres : (generate_embedding cfg hashFn invoke (compositeText r) s).1 with
    | none => simp [hres]
    | some v =>
      have hv : v.isEmpty = true := by
        have := hfal
        rw [hres] at this
        simpa [pyTruthy] using this
      simp [hres, hv]
  refine ⟨hproc, ?_⟩
  rw [lambda_handler_eq_runLoop, runLoop_cons, hproc]
  simp

/-- Concrete instantiation of `c10_falsy_embedding_not_annotated`: the
service succeeds but returns an empty vector — a present, falsy value — and
the record stays unannotated with the failure counted. -/
theorem c10_falsy_embedding_not_annotated_witness :
    processRecord tCfg tHash 7 (.ok (.success (some []))) tRec initState =
      (tRec, false, (generate_embedding tCfg tHash (.success (some []))
        (compositeText tRec) initState).2) ∧
    lambda_handler tCfg tHash 7 (fun _ => .ok (.success (some []))) [tRec] initState =
      { events := [tRec], successful := 0, failed := 1,
        state := (generate_embedding tCfg tHash (.success (some []))
          (compositeText tRec) initState).2 } :=
  c10_falsy_embedding_not_annotated tCfg tHash 7 (.success (some [])) tRec initState
    (by decide)

end EmbeddingLambda

namespace StreamlitApp

/-- C6 counterexample: with an hourly limit of 1, a single query tracked at
epoch second 7200 (hour 2) makes `check_rate_limits` return `False` at that
moment — and *still* `False` exactly one hour later (epoch 10800), with no
new requests tracked in between, because the hour-truncated entry 7200 still
satisfies `7200 ≥ truncHour 10800 - 3600`.  The claim asserts the second
check returns `True`. -/
theorem c6_rate_limit_counterexample :
    CostTracker.check_rate_limits aCfg 7200
      (CostTracker.track_query aCfg 7200 5 initState) = false ∧
    CostTracker.check_rate_limits aCfg 10800
      (CostTracker.track_query aCfg 7200 5 initState) = false := by
  decide

/-- C6 amended: with cost tracking enabled, `check_rate_limits` returns
`False` whenever the entries at or after `truncHour now - 3600` reach the
hourly ceiling (in particular one hour after the limit was reached, tracked
entries still count); it returns `True` again only once every tracked
(hour-truncated) entry is at least two hours old relative to the current
hour — and the session token budget is not exceeded. -/
theorem c6_rate_limit_window (cfg : AppConfig) (now : Nat) (s : AppState)
    (hon : cfg.enableCostTracking = true) :
    (cfg.maxRequestsPerHour ≤
        (s.hourlyRequests.filter (fun r => decide (truncHour now - 3600 ≤ r))).length →
      CostTracker.check_rate_limits cfg now s = false) ∧
    (0 < cfg.maxRequestsPerHour →
      s.totalTokensProcessed ≤ cfg.maxTokensPerSession →
      (∀ r ∈ s.hourlyRequests, r + 7200 ≤ truncHour now) →
      CostTracker.check_rate_limits cfg now s = true) := by
  constructor
  · intro hfull
    unfold CostTracker.check_rate_limits
    simp only [hon, Bool.not_true, Bool.false_eq_true, if_false]
    rw [if_pos hfull]
  · intro hpos htok hold
    unfold CostTracker.check_rate_limits
    simp only [hon, Bool.not_true, Bool.false_eq_true, if_false]
    have hfilter : s.hourlyRequests.filter (fun r => decide (truncHour now - 3600 ≤ r)) = [] := by
      rw [List.filter_eq_nil_iff]
      intro r hr
      have := hold r hr
      simp only [decide_eq_true_eq]
      omega
    rw [hfilter]
    simp only [List.length_nil]
    rw [if_neg (by omega), if_neg (by omega)]

/-- Concrete instantiation of `c6_rate_limit_window`: the limit-reached state
is refused at hour 2 and accepted again at hour 4 (two hours later). -/
theorem c6_rate_limit_window_witness :
    CostTracker.check_rate_limits aCfg 7200
      { initState with hourlyRequests := [7200] } = false ∧
    CostTracker.check_rate_limits aCfg 14400
      { initState with hourlyRequests := [7200] } = true := by
  refine ⟨(c6_rate_limit_window aCfg 7200 { initState with hourlyRequests := [7200] } rfl).1
    (by decide), (c6_rate_limit_window aCfg 14400 { initState with hourlyRequests := [7200] } rfl).2
    (by decide) (by decide) (by decide)⟩

/-- C8 counterexample: a whitespace-only question (a single space) is truthy
for Python's `if user_question:`, so the flow is *not* rejected with the
"Please enter a question." warning: it proceeds through the spinner steps and
ends with the "no relevant logs" notice (the embedding client returned
absent), even though a search response was available.  The claim's "rejected
with a user-visible warning and no further action" is therefore false for
blank input; only the zero-invocations part survives (the state, including
the invocation trace, is unchanged). -/
theorem c8_blank_question_counterexample :
    get_answer_handler aCfg (.success (some [1])) (.ok ["m1"]) [' '] initState =
      ([UIAction.writeStep 1, UIAction.writeStep 2, UIAction.warnNoLogs], initState) ∧
    (get_answer_handler aCfg (.success (some [1])) (.ok ["m1"]) [' '] initState).1 ≠
      [UIAction.warnEnterQuestion] := by
  decide

/-- C8 amended: an *empty* question is rejected with the
"Please enter a question." warning and nothing else happens; a
*whitespace-only* question proceeds into the flow, but the embedding client
rejects it internally and returns absent without invoking the service, so the
flow ends at the "no relevant logs" notice; in both cases the session state
is unchanged and zero external embedding invocations are issued. -/
theorem c8_blank_question_no_invocation (cfg : AppConfig) (o : InvokeOutcome)
    (resp : Except String (List String)) (q : Text) (s : AppState)
    (hblank : q.all Char.isWhitespace = true) :
    (q = [] → get_answer_handler cfg o resp q s = ([UIAction.warnEnterQuestion], s)) ∧
    (q ≠ [] → get_answer_handler cfg o resp q s =
      ([UIAction.writeStep 1, UIAction.writeStep 2, UIAction.warnNoLogs], s)) ∧
    (get_answer_handler cfg o resp q s).2 = s ∧
    (get_answer_handler cfg o resp q s).2.invokedTexts = s.invokedTexts := by
  have hmain : (q = [] → get_answer_handler cfg o resp q s = ([UIAction.warnEnterQuestion], s)) ∧
      (q ≠ [] → get_answer_handler cfg o resp q s =
        ([UIAction.writeStep 1, UIAction.writeStep 2, UIAction.warnNoLogs], s)) := by
    constructor
    · intro hq
      subst hq
      rfl
    · intro hq
      have hne : q.isEmpty = false := by
        cases q with
        | nil => exact absurd rfl hq
        | cons a t => rfl
      unfold get_answer_handler
      rw [hne]
      simp only [Bool.false_eq_true, if_false]
      have hemb : get_embedding cfg o q s = (none, s) := by
        unfold get_embedding
        rw [hne, hblank]
        simp
      rw [hemb]
      rfl
  have hstate : (get_answer_handler cfg o resp q s).2 = s := by
    by_cases hq : q = []
    · rw [hmain.1 hq]
    · rw [hmain.2 hq]
  exact ⟨hmain.1, hmain.2, hstate, by rw [hstate]⟩

/-- Concrete instantiation of `c8_blank_question_no_invocation` at the
single-space question. -/
theorem c8_blank_question_no_invocation_witness :
    get_answer_handler aCfg (.success (some [1])) (.ok ["m1"]) [' '] initState =
      ([UIAction.writeStep 1, UIAction.writeStep 2, UIAction.warnNoLogs], initState) ∧
    (get_answer_handler aCfg (.success (some [1])) (.ok ["m1"]) [' '] initState).2.invokedTexts =
      initState.invokedTexts := by
  have h := c8_blank_question_no_invocation aCfg (.success (some [1])) (.ok ["m1"]) [' ']
    initState (by decide)
  exact ⟨h.2.1 (by decide), h.2.2.2⟩

end StreamlitApp

namespace EmbeddingLambda

theorem truncText_trunc (cfg : Config) (t : Text) :
    truncText cfg (truncText cfg t) = truncText cfg t := by
  unfold truncText
  split
  · rw [if_neg (by simp only [List.length_take]; omega)]
  · rfl

/-- `generate_embedding` depends on its input text only through the truncated
text: truncation happens before fingerprinting, cache use, and invocation. -/
theorem generate_embedding_truncates (cfg : Config) (hashFn : Text → String)
    (o : InvokeOutcome) (t : Text) (s : LambdaState) :
    generate_embedding cfg hashFn o (truncText cfg t) s =
      generate_embedding cfg hashFn o t s := by
  unfold generate_embedding
  rw [truncText_trunc]

end EmbeddingLambda

namespace StreamlitApp

theorem app_track_preserves_invokedTexts (cfg : AppConfig) (len : Nat) (s : AppState) :
    (CostTracker.track_embedding_request cfg len s).invokedTexts = s.invokedTexts := by
  unfold CostTracker.track_embedding_request
  split <;> rfl

end StreamlitApp

/-- C3 counterexample: in the interactive variant, a three-character question
is sent to the external embedding service in full even though the configured
maximum length is 2 — `get_embedding` in `src/streamlit_app/app.py` contains
no truncation step at all, so the "both variants truncate" claim is false. -/
theorem c3_interactive_no_truncation_counterexample :
    (StreamlitApp.get_embedding StreamlitApp.cCfg (.success (some [1]))
      ['a', 'b', 'c'] StreamlitApp.initState).2.invokedTexts = [['a', 'b', 'c']] ∧
    StreamlitApp.cCfg.maxQueryLength < (['a', 'b', 'c'] : Text).length := by
  decide

/-- C3 amended: only the *batch* embedding client truncates over-long text to
exactly the configured maximum length (the prefix), and it does so before
fingerprinting, cache consultation/population, and invocation — the whole
call behaves as if given the truncated text.  The *interactive* client
applies no truncation (and keeps no embedding cache): it invokes the external
service with the text exactly as given. -/
theorem c3_truncation_batch_only (cfg : EmbeddingLambda.Config)
    (hashFn : Text → String) (o : InvokeOutcome) (t : Text)
    (s : EmbeddingLambda.LambdaState) (acfg : StreamlitApp.AppConfig)
    (o2 : InvokeOutcome) (t2 : Text) (s2 : StreamlitApp.AppState)
    (hlen : cfg.maxTextLength < t.length)
    (hne : (t2.isEmpty || t2.all Char.isWhitespace) = false) :
    EmbeddingLambda.generate_embedding cfg hashFn o t s =
      EmbeddingLambda.generate_embedding cfg hashFn o (t.take cfg.maxTextLength) s ∧
    (EmbeddingLambda.truncText cfg t).length = cfg.maxTextLength ∧
    EmbeddingLambda.truncText cfg t ++ t.drop cfg.maxTextLength = t ∧
    (StreamlitApp.get_embedding acfg o2 t2 s2).2.invokedTexts =
      s2.invokedTexts ++ [t2] := by
  have h1 : EmbeddingLambda.truncText cfg t = t.take cfg.maxTextLength := by
    unfold EmbeddingLambda.truncText
    rw [if_pos hlen]
  refine ⟨?_, ?_, ?_, ?_⟩
  · conv_lhs => rw [← EmbeddingLambda.generate_embedding_truncates cfg hashFn o t s]
    rw [h1]
  · rw [h1]
    simp only [List.length_take]
    omega
  · rw [h1]
    exact List.take_append_drop cfg.maxTextLength t
  · unfold StreamlitApp.get_embedding
    rw [hne]
    simp only [Bool.false_eq_true, if_false]
    cases o2 <;> simp [StreamlitApp.app_track_preserves_invokedTexts]

/-- Concrete instantiation of `c3_truncation_batch_only`: batch truncates a
four-character text to the two-character configured maximum; the interactive
client sends a three-character question whole. -/
theorem c3_truncation_batch_only_witness :
    EmbeddingLambda.generate_embedding
        { maxTextLength := 2, batchSize := 2, enableCaching := true,
          enableCostTracking := true, maxTokensPerExecution := 1000,
          bedrockModelId := "titan" } EmbeddingLambda.tHash
        (.success (some [4])) ['w', 'x', 'y', 'z'] EmbeddingLambda.initState =
      EmbeddingLambda.generate_embedding
        { maxTextLength := 2, batchSize := 2, enableCaching := true,
          enableCostTracking := true, maxTokensPerExecution := 1000,
          bedrockModelId := "titan" } EmbeddingLambda.tHash
        (.success (some [4])) (['w', 'x', 'y', 'z'].take 2) EmbeddingLambda.initState ∧
    (StreamlitApp.get_embedding StreamlitApp.cCfg (.success (some [1]))
      ['a', 'b', 'c'] StreamlitApp.initState).2.invokedTexts =
      StreamlitApp.initState.invokedTexts ++ [['a', 'b', 'c']] := by
  have h := c3_truncation_batch_only
    { maxTextLength := 2, batchSize := 2, enableCaching := true,
      enableCostTracking := true, maxTokensPerExecution := 1000,
      bedrockModelId := "titan" } EmbeddingLambda.tHash (.success (some [4]))
    ['w', 'x', 'y', 'z'] EmbeddingLambda.initState StreamlitApp.cCfg
    (.success (some [1])) ['a', 'b', 'c'] StreamlitApp.initState
    (by decide) (by decide)
  exact ⟨h.1, h.2.2.2⟩

namespace StreamlitApp

theorem dictGet_dictSet_self {α : Type} (c : QCache α) (k : String) (e : QEntry α) :
    dictGet (dictSet c k e) k = some e := by
  induction c with
  | nil => simp [dictGet, dictSet, List.find?]
  | cons h rest ih =>
    unfold dictSet
    cases hk : h.1 == k with
    | true =>
      simp only [hk, if_true]
      simp [dictGet, List.find?, hk]
    | false =>
      simp only [hk, Bool.false_eq_true, if_false]
      simpa [dictGet, List.find?, hk] using ih

theorem length_dictSet_of_any {α : Type} (c : QCache α) (k : String) (e : QEntry α)
    (h : c.any (fun x => x.1 == k) = true) :
    (dictSet c k e).length = c.length := by
  induction c with
  | nil => simp at h
  | cons hd rest ih =>
    unfold dictSet
    cases hk : hd.1 == k with
    | true => simp [hk]
    | false =>
      have h' : rest.any (fun x => x.1 == k) = true := by
        simpa [List.any_cons, hk] using h
      simp [hk, ih h']

theorem dictSet_of_not_any {α : Type} (c : QCache α) (k : String) (e : QEntry α)
    (h : c.any (fun x => x.1 == k) = false) :
    dictSet c k e = c ++ [(k, e)] := by
  induction c with
  | nil => rfl
  | cons hd rest ih =>
    have hk : (hd.1 == k) = false := by
      by_contra hc
      simp only [Bool.not_eq_false] at hc
      simp [List.any_cons, hc] at h
    have h' : rest.any (fun x => x.1 == k) = false := by
      simpa [List.any_cons, hk] using h
    unfold dictSet
    simp [hk, ih h']

theorem length_dictSet_le {α : Type} (c : QCache α) (k : String) (e : QEntry α) :
    (dictSet c k e).length ≤ c.length + 1 := by
  induction c with
  | nil => simp [dictSet]
  | cons hd rest ih =>
    unfold dictSet
    cases hk : hd.1 == k with
    | true => simp [hk]
    | false =>
      simp only [hk, Bool.false_eq_true, if_false, List.length_cons]
      omega

theorem dictGet_eraseP_ne {α : Type} (c : QCache α) (j k : String)
    (hne : (k == j) = false) :
    dictGet (c.eraseP (fun e => e.1 == j)) k = dictGet c k := by
  have hjk : j ≠ k := fun h => by subst h; simp at hne
  induction c with
  | nil => rfl
  | cons hd rest ih =>
    rw [List.eraseP_cons]
    cases hj : hd.1 == j with
    | true =>
      have hdj : hd.1 = j := by simpa using hj
      have hdk : (hd.1 == k) = false := by
        rw [hdj]
        exact beq_eq_false_iff_ne.mpr hjk
      simp only [cond_true]
      simp [dictGet, List.find?, hdk]
    | false =>
      simp only [cond_false]
      cases hk : hd.1 == k with
      | true => simp [dictGet, List.find?, hk]
      | false => simpa [dictGet, List.find?, hk] using ih

theorem dictGet_eraseP_self {α : Type} (c : QCache α) (k : String)
    (hnd : (c.map Prod.fst).Nodup) :
    dictGet (c.eraseP (fun e => e.1 == k)) k = none := by
  induction c with
  | nil => rfl
  | cons hd rest ih =>
    rw [List.map_cons, List.nodup_cons] at hnd
    obtain ⟨hnotin, hnd'⟩ := hnd
    rw [List.eraseP_cons]
    cases hk : hd.1 == k with
    | true =>
      have hdk : hd.1 = k := by simpa using hk
      simp only [cond_true]
      unfold dictGet
      rw [List.find?_eq_none.mpr]
      · rfl
      · intro x hx
        simp only [Bool.not_eq_true]
        by_contra hc
        simp only [Bool.not_eq_false] at hc
        have hxk : x.1 = k := by simpa using hc
        exact hnotin (by rw [hdk, ← hxk]; exact List.mem_map_of_mem Prod.fst hx)
    | false =>
      simp only [cond_false]
      simpa [dictGet, List.find?, hk] using ih hnd'

theorem oldestEntry_spec {α : Type} (c : QCache α) (hne : c ≠ []) :
    ∃ e, oldestEntry c = some e ∧ e ∈ c ∧
      ∀ e' ∈ c, e.2.timestamp ≤ e'.2.timestamp := by
  obtain ⟨m, hm⟩ : ∃ m, c.argmin (fun e => e.2.timestamp) = some m := by
    cases harg : c.argmin (fun e => e.2.timestamp) with
    | none => exact absurd (List.argmin_eq_none.mp harg) hne
    | some m => exact ⟨m, rfl⟩
  have hmmem : m ∈ c :=
    List.argmin_mem (f := fun e => e.2.timestamp) (Option.mem_def.mpr hm)
  have hmle : ∀ e' ∈ c, m.2.timestamp ≤ e'.2.timestamp := fun e' he' =>
    List.le_of_mem_argmin (f := fun e => e.2.timestamp) he' (Option.mem_def.mpr hm)
  have hsome : (c.find? (fun e => c.all (fun e' => e.2.timestamp ≤ e'.2.timestamp))).isSome := by
    rw [List.find?_isSome]
    exact ⟨m, hmmem, by rw [List.all_eq_true]; intro e' he'; simpa using hmle e' he'⟩
  obtain ⟨e, he⟩ := Option.isSome_iff_exists.mp hsome
  refine ⟨e, he, List.mem_of_find?_eq_some he, ?_⟩
  have := List.find?_some he
  rw [List.all_eq_true] at this
  intro e' he'
  simpa using this e' he'

end StreamlitApp

namespace StreamlitApp

theorem keys_dictSet_of_any {α : Type} (c : QCache α) (k : String) (e : QEntry α)
    (h : c.any (fun x => x.1 == k) = true) :
    (dictSet c k e).map Prod.fst = c.map Prod.fst := by
  induction c with
  | nil => simp at h
  | cons hd rest ih =>
    unfold dictSet
    cases hk : hd.1 == k with
    | true => simp [hk]
    | false =>
      have h' : rest.any (fun x => x.1 == k) = true := by
        simpa [List.any_cons, hk] using h
      simp [hk, ih h']

theorem not_mem_keys_of_not_any {α : Type} (c : QCache α) (k : String)
    (h : c.any (fun x => x.1 == k) = false) :
    k ∉ c.map Prod.fst := by
  rw [List.any_eq_false] at h
  intro hmem
  obtain ⟨x, hx, hxk⟩ := List.mem_map.mp hmem
  exact h x hx (by simp [hxk])

theorem oldestEntry_append_mem_left {α : Type} (c : QCache α) (x : String × QEntry α)
    (hne : c ≠ []) (hall : ∀ y ∈ c, y.2.timestamp ≤ x.2.timestamp) :
    ∃ em, oldestEntry (c ++ [x]) = some em ∧ em ∈ c ∧
      ∀ e' ∈ c ++ [x], em.2.timestamp ≤ e'.2.timestamp := by
  obtain ⟨m, hm⟩ : ∃ m, c.argmin (fun e => e.2.timestamp) = some m := by
    cases harg : c.argmin (fun e => e.2.timestamp) with
    | none => exact absurd (List.argmin_eq_none.mp harg) hne
    | some m => exact ⟨m, rfl⟩
  have hmmem : m ∈ c :=
    List.argmin_mem (f := fun e => e.2.timestamp) (Option.mem_def.mpr hm)
  have hmle : ∀ e' ∈ c, m.2.timestamp ≤ e'.2.timestamp := fun e' he' =>
    List.le_of_mem_argmin (f := fun e => e.2.timestamp) he' (Option.mem_def.mpr hm)
  have hpred : ((c ++ [x]).all (fun e' => m.2.timestamp ≤ e'.2.timestamp)) = true := by
    rw [List.all_eq_true]
    intro e' he'
    rcases List.mem_append.mp he' with h | h
    · simpa using hmle e' h
    · have : e' = x := by simpa using h
      subst this
      simpa using hall m hmmem
  have hsomeleft : (c.find? (fun e =>
      (c ++ [x]).all (fun e' => e.2.timestamp ≤ e'.2.timestamp))).isSome := by
    rw [List.find?_isSome]
    exact ⟨m, hmmem, hpred⟩
  obtain ⟨em, hem⟩ := Option.isSome_iff_exists.mp hsomeleft
  have hfull : oldestEntry (c ++ [x]) = some em := by
    unfold oldestEntry
    rw [List.find?_append, hem]
    rfl
  have hminem := List.find?_some hem
  rw [List.all_eq_true] at hminem
  exact ⟨em, hfull, List.mem_of_find?_eq_some hem, fun e' he' => by simpa using hminem e' he'⟩

theorem qget_hit {α : Type} (cfg : AppConfig) (pyHash : String → Int) (now : Nat)
    (q : String) (sz : Nat) (c : QCache α) (e : QEntry α)
    (hq : cfg.enableQueryCaching = true)
    (hdg : dictGet c (QueryCache.get_cache_key pyHash q sz) = some e)
    (hfresh : now - e.timestamp < 300) :
    QueryCache.get cfg pyHash now q sz c = (some e.data, c) := by
  unfold QueryCache.get
  simp only [hq, Bool.not_true, Bool.false_eq_true, if_false, hdg]
  rw [if_pos hfresh]

theorem qget_expired {α : Type} (cfg : AppConfig) (pyHash : String → Int) (now : Nat)
    (q : String) (sz : Nat) (c : QCache α) (e : QEntry α)
    (hq : cfg.enableQueryCaching = true)
    (hdg : dictGet c (QueryCache.get_cache_key pyHash q sz) = some e)
    (hstale : ¬ now - e.timestamp < 300) :
    QueryCache.get cfg pyHash now q sz c =
      (none, c.eraseP (fun e' => e'.1 == QueryCache.get_cache_key pyHash q sz)) := by
  unfold QueryCache.get
  simp only [hq, Bool.not_true, Bool.false_eq_true, if_false, hdg]
  rw [if_neg hstale]

theorem qset_unfold {α : Type} (cfg : AppConfig) (pyHash : String → Int) (now1 : Nat)
    (q : String) (sz : Nat) (res : α) (c : QCache α)
    (hq : cfg.enableQueryCaching = true) :
    QueryCache.set cfg pyHash now1 q sz res c =
      (if 50 < (dictSet c (QueryCache.get_cache_key pyHash q sz)
          (QEntry.mk now1 res)).length then
        match oldestEntry (dictSet c (QueryCache.get_cache_key pyHash q sz)
            (QEntry.mk now1 res)) with
        | some e => (dictSet c (QueryCache.get_cache_key pyHash q sz)
            (QEntry.mk now1 res)).eraseP (fun e' => e'.1 == e.1)
        | none => dictSet c (QueryCache.get_cache_key pyHash q sz) (QEntry.mk now1 res)
      else dictSet c (QueryCache.get_cache_key pyHash q sz) (QEntry.mk now1 res)) := by
  unfold QueryCache.set
  simp only [hq, Bool.not_true, Bool.false_eq_true, if_false]

theorem qset_cases {α : Type} (cfg : AppConfig) (pyHash : String → Int) (now1 : Nat)
    (q : String) (sz : Nat) (res : α) (c : QCache α)
    (hq : cfg.enableQueryCaching = true) (hlen : c.length ≤ 50)
    (hts : ∀ x ∈ c, x.2.timestamp ≤ now1) :
    dictGet (QueryCache.set cfg pyHash now1 q sz res c)
        (QueryCache.get_cache_key pyHash q sz) = some (QEntry.mk now1 res) ∧
    (QueryCache.set cfg pyHash now1 q sz res c).length ≤ 50 ∧
    ((c.map Prod.fst).Nodup →
      ((QueryCache.set cfg pyHash now1 q sz res c).map Prod.fst).Nodup) := by
  rw [qset_unfold cfg pyHash now1 q sz res c hq]
  by_cases hany : c.any (fun x => x.1 == QueryCache.get_cache_key pyHash q sz) = true
  · have hlen1 := length_dictSet_of_any c (QueryCache.get_cache_key pyHash q sz)
      (QEntry.mk now1 res) hany
    rw [if_neg (by omega)]
    refine ⟨dictGet_dictSet_self c _ _, by omega, fun hnd => ?_⟩
    rw [keys_dictSet_of_any c _ _ hany]
    exact hnd
  · have hany' : c.any (fun x => x.1 == QueryCache.get_cache_key pyHash q sz) = false := by
      cases h : c.any (fun x => x.1 == QueryCache.get_cache_key pyHash q sz) with
      | true => exact absurd h hany
      | false => rfl
    have hc1 := dictSet_of_not_any c (QueryCache.get_cache_key pyHash q sz)
      (QEntry.mk now1 res) hany'
    have hnotin := not_mem_keys_of_not_any c _ hany'
    have hlen1 : (dictSet c (QueryCache.get_cache_key pyHash q sz)
        (QEntry.mk now1 res)).length = c.length + 1 := by
      rw [hc1]; simp
    have hndkeys : (c.map Prod.fst).Nodup →
        ((dictSet c (QueryCache.get_cache_key pyHash q sz)
          (QEntry.mk now1 res)).map Prod.fst).Nodup := by
      intro hnd
      rw [hc1, List.map_append]
      simp only [List.map_cons, List.map_nil]
      rw [List.nodup_append]
      exact ⟨hnd, List.nodup_singleton _, by simpa using fun hk => hnotin hk⟩
    by_cases h51 : 50 < (dictSet c (QueryCache.get_cache_key pyHash q sz)
        (QEntry.mk now1 res)).length
    · have hcne : c ≠ [] := by
        intro hnil
        rw [hnil] at hlen1 h51
        simp only [List.length_nil] at hlen1
        omega
      obtain ⟨em, hem, hemc, hemmin⟩ := oldestEntry_append_mem_left c
        (QueryCache.get_cache_key pyHash q sz, QEntry.mk now1 res)
        hcne (fun y hy => hts y hy)
      rw [if_pos h51]
      rw [hc1, hem]
      have hemk : (QueryCache.get_cache_key pyHash q sz == em.1) = false := by
        rw [beq_eq_false_iff_ne]
        intro hkem
        exact hnotin (hkem ▸ List.mem_map_of_mem Prod.fst hemc)
      have hdg1 : dictGet ((c ++ [(QueryCache.get_cache_key pyHash q sz,
          QEntry.mk now1 res)]).eraseP (fun e' => e'.1 == em.1))
          (QueryCache.get_cache_key pyHash q sz) = some (QEntry.mk now1 res) := by
        rw [dictGet_eraseP_ne _ _ _ hemk, ← hc1]
        exact dictGet_dictSet_self c _ _
      refine ⟨hdg1, ?_, fun hnd => ?_⟩
      · have hmem1 : em ∈ c ++ [(QueryCache.get_cache_key pyHash q sz,
            QEntry.mk now1 res)] := List.mem_append_left _ hemc
        have herase := List.length_eraseP_of_mem hmem1
          (p := fun e' => e'.1 == em.1) (by simp)
        rw [herase]
        rw [hc1] at hlen1
        simp only [List.length_append, List.length_cons, List.length_nil] at hlen1 ⊢
        omega
      · have hsub : List.Sublist
            ((c ++ [(QueryCache.get_cache_key pyHash q sz,
              QEntry.mk now1 res)]).eraseP (fun e' => e'.1 == em.1))
            (c ++ [(QueryCache.get_cache_key pyHash q sz, QEntry.mk now1 res)]) :=
          List.eraseP_sublist _
        have hnd1 := hndkeys hnd
        rw [hc1] at hnd1
        exact hnd1.sublist (hsub.map Prod.fst)
    · rw [if_neg h51]
      exact ⟨dictGet_dictSet_self c _ _, by omega, hndkeys⟩

theorem qset_length {α : Type} (cfg : AppConfig) (pyHash : String → Int) (now1 : Nat)
    (q : String) (sz : Nat) (res : α) (c : QCache α)
    (hq : cfg.enableQueryCaching = true) (hlen : c.length ≤ 50) :
    (QueryCache.set cfg pyHash now1 q sz res c).length ≤ 50 := by
  rw [qset_unfold cfg pyHash now1 q sz res c hq]
  have hle := length_dictSet_le c (QueryCache.get_cache_key pyHash q sz)
    (QEntry.mk now1 res)
  by_cases h51 : 50 < (dictSet c (QueryCache.get_cache_key pyHash q sz)
      (QEntry.mk now1 res)).length
  · have hne : dictSet c (QueryCache.get_cache_key pyHash q sz)
        (QEntry.mk now1 res) ≠ [] := by
      intro hnil
      rw [hnil] at h51
      simp at h51
    obtain ⟨em, hem, hemmem, _⟩ := oldestEntry_spec _ hne
    rw [if_pos h51, hem]
    have herase := List.length_eraseP_of_mem hemmem
      (p := fun e' => e'.1 == em.1) (by simp)
    rw [herase]
    omega
  · rw [if_neg h51]
    omega

end StreamlitApp

namespace StreamlitApp

/-- C5: with query caching enabled: (a) a result stored by `set` and read
back by `get` strictly within 300 seconds returns the stored payload
(assuming a monotone clock — existing timestamps do not exceed the insertion
time — and a cache within its 50-entry invariant); (b) a read 300 seconds or
later returns absent and removes the entry (unique keys, as in a Python
dict); (c) the cache holds at most 50 entries after every `set`; (d) when an
insertion leaves the dict with more than 50 entries, exactly the single first
entry with the oldest insertion timestamp is deleted. -/
theorem c5_query_cache_contract {α : Type} (cfg : AppConfig) (pyHash : String → Int)
    (hq : cfg.enableQueryCaching = true) :
    (∀ (now1 now2 : Nat) (q : String) (sz : Nat) (res : α) (c : QCache α),
      (∀ x ∈ c, x.2.timestamp ≤ now1) → c.length ≤ 50 → now2 - now1 < 300 →
      (QueryCache.get cfg pyHash now2 q sz
        (QueryCache.set cfg pyHash now1 q sz res c)).1 = some res) ∧
    (∀ (now1 now2 : Nat) (q : String) (sz : Nat) (res : α) (c : QCache α),
      (∀ x ∈ c, x.2.timestamp ≤ now1) → c.length ≤ 50 →
      (c.map Prod.fst).Nodup → 300 ≤ now2 - now1 →
      (QueryCache.get cfg pyHash now2 q sz
        (QueryCache.set cfg pyHash now1 q sz res c)).1 = none ∧
      dictGet (QueryCache.get cfg pyHash now2 q sz
          (QueryCache.set cfg pyHash now1 q sz res c)).2
        (QueryCache.get_cache_key pyHash q sz) = none) ∧
    (∀ (now1 : Nat) (q : String) (sz : Nat) (res : α) (c : QCache α),
      c.length ≤ 50 →
      (QueryCache.set cfg pyHash now1 q sz res c).length ≤ 50) ∧
    (∀ (now1 : Nat) (q : String) (sz : Nat) (res : α) (c : QCache α),
      50 < (dictSet c (QueryCache.get_cache_key pyHash q sz) (QEntry.mk now1 res)).length →
      ∃ em ∈ dictSet c (QueryCache.get_cache_key pyHash q sz) (QEntry.mk now1 res),
        (∀ e' ∈ dictSet c (QueryCache.get_cache_key pyHash q sz) (QEntry.mk now1 res),
          em.2.timestamp ≤ e'.2.timestamp) ∧
        QueryCache.set cfg pyHash now1 q sz res c =
          (dictSet c (QueryCache.get_cache_key pyHash q sz)
            (QEntry.mk now1 res)).eraseP (fun e' => e'.1 == em.1)) := by
  refine ⟨?_, ?_, ?_, ?_⟩
  · intro now1 now2 q sz res c hts hlen hfresh
    obtain ⟨hdg, -, -⟩ := qset_cases cfg pyHash now1 q sz res c hq hlen hts
    rw [qget_hit cfg pyHash now2 q sz _ _ hq hdg hfresh]
  · intro now1 now2 q sz res c hts hlen hnd hstale
    obtain ⟨hdg, -, hndk⟩ := qset_cases cfg pyHash now1 q sz res c hq hlen hts
    have hget := qget_expired cfg pyHash now2 q sz _ _ hq hdg
      (by show ¬ now2 - now1 < 300; omega)
    rw [hget]
    exact ⟨rfl, dictGet_eraseP_self _ _ (hndk hnd)⟩
  · intro now1 q sz res c hlen
    exact qset_length cfg pyHash now1 q sz res c hq hlen
  · intro now1 q sz res c h51
    have hne : dictSet c (QueryCache.get_cache_key pyHash q sz) (QEntry.mk now1 res) ≠ [] := by
      intro hnil
      rw [hnil] at h51
      simp at h51
    obtain ⟨em, hem, hemmem, hemmin⟩ := oldestEntry_spec _ hne
    refine ⟨em, hemmem, hemmin, ?_⟩
    rw [qset_unfold cfg pyHash now1 q sz res c hq, if_pos h51, hem]

/-- Concrete instantiation of `c5_query_cache_contract`: a fresh read at 200s
after a put at 100s returns the payload; the same read at 400s returns absent
with the entry purged; a put into a full 50-entry cache stays at 50 and
evicts the oldest entry. -/
theorem c5_query_cache_contract_witness :
    (QueryCache.get aCfg aHash 200 "errors today" 10
      (QueryCache.set aCfg aHash 100 "errors today" 10 (5 : Nat) [])).1 = some 5 ∧
    (QueryCache.get aCfg aHash 400 "errors today" 10
      (QueryCache.set aCfg aHash 100 "errors today" 10 (5 : Nat) [])).1 = none ∧
    dictGet (QueryCache.get aCfg aHash 400 "errors today" 10
        (QueryCache.set aCfg aHash 100 "errors today" 10 (5 : Nat) [])).2
      (QueryCache.get_cache_key aHash "errors today" 10) = none ∧
    (QueryCache.set aCfg aHash 100 "errors today" 10 (5 : Nat)
      ((List.range 50).map (fun i => (Nat.repr i, QEntry.mk i 0)))).length ≤ 50 ∧
    (∃ em ∈ dictSet ((List.range 50).map (fun i => (Nat.repr i, QEntry.mk i (0 : Nat))))
        (QueryCache.get_cache_key aHash "errors today" 10) (QEntry.mk 100 0),
      (∀ e' ∈ dictSet ((List.range 50).map (fun i => (Nat.repr i, QEntry.mk i 0)))
          (QueryCache.get_cache_key aHash "errors today" 10) (QEntry.mk 100 0),
        em.2.timestamp ≤ e'.2.timestamp) ∧
      QueryCache.set aCfg aHash 100 "errors today" 10 (0 : Nat)
          ((List.range 50).map (fun i => (Nat.repr i, QEntry.mk i 0))) =
        (dictSet ((List.range 50).map (fun i => (Nat.repr i, QEntry.mk i 0)))
          (QueryCache.get_cache_key aHash "errors today" 10)
          (QEntry.mk 100 0)).eraseP (fun e' => e'.1 == em.1)) := by
  have h := c5_query_cache_contract (α := Nat) aCfg aHash rfl
  refine ⟨h.1 100 200 "errors today" 10 5 [] (by simp) (by decide) (by decide), ?_, ?_, ?_, ?_⟩
  · exact (h.2.1 100 400 "errors today" 10 5 [] (by simp) (by decide) (by decide) (by decide)).1
  · exact (h.2.1 100 400 "errors today" 10 5 [] (by simp) (by decide) (by decide) (by decide)).2
  · exact h.2.2.1 100 "errors today" 10 5 _ (by simp)
  · exact h.2.2.2 100 "errors today" 10 0 _ (by decide)

end StreamlitApp

namespace StreamlitApp

theorem digitChar_inj_lt (a b : Nat) (ha : a < 10) (hb : b < 10)
    (h : Nat.digitChar a = Nat.digitChar b) : a = b := by
  have key : ∀ x y : Fin 10, Nat.digitChar x.val = Nat.digitChar y.val → x = y := by decide
  have := key ⟨a, ha⟩ ⟨b, hb⟩ h
  simpa using congrArg Fin.val this

theorem digitChar_ne_dash (d : Nat) (hd : d < 10) : Nat.digitChar d ≠ '-' := by
  have key : ∀ x : Fin 10, Nat.digitChar x.val ≠ '-' := by decide
  exact key ⟨d, hd⟩

theorem digitChar_ne_underscore (d : Nat) (hd : d < 10) : Nat.digitChar d ≠ '_' := by
  have key : ∀ x : Fin 10, Nat.digitChar x.val ≠ '_' := by decide
  exact key ⟨d, hd⟩

theorem decChars_zero : decChars 0 = ['0'] := rfl

theorem decChars_pos (n : Nat) (hn : n ≠ 0) :
    decChars n = ((Nat.digits 10 n).map Nat.digitChar).reverse := by
  unfold decChars
  rw [if_neg hn]

theorem toDigitsCore_eq_decChars (fuel : Nat) :
    ∀ (n : Nat) (acc : List Char), n < fuel →
      Nat.toDigitsCore 10 fuel n acc = decChars n ++ acc := by
  induction fuel with
  | zero => intro n acc h; omega
  | succ fuel ih =>
    intro n acc h
    show (let d := Nat.digitChar (n % 10); let n' := n / 10;
      if n' = 0 then d :: acc else Nat.toDigitsCore 10 fuel n' (d :: acc)) =
        decChars n ++ acc
    by_cases hdiv : n / 10 = 0
    · have hlt : n < 10 := (Nat.div_eq_zero_iff (by norm_num)).mp hdiv
      simp only [hdiv, if_true]
      by_cases hn : n = 0
      · subst hn
        rfl
      · rw [decChars_pos n hn]
        rw [Nat.digits_def' (by norm_num : (1 : Nat) < 10) (Nat.pos_of_ne_zero hn)]
        rw [hdiv]
        simp [Nat.mod_eq_of_lt hlt]
    · have hge : 10 ≤ n := by
        by_contra hc
        exact hdiv (Nat.div_eq_of_lt (by omega))
      have hn : n ≠ 0 := by omega
      have hlt' : n / 10 < fuel := by
        have := Nat.div_lt_self (by omega : 0 < n) (by norm_num : 1 < 10)
        omega
      simp only [hdiv, if_false]
      rw [ih (n / 10) (Nat.digitChar (n % 10) :: acc) hlt']
      rw [decChars_pos n hn,
        Nat.digits_def' (by norm_num : (1 : Nat) < 10) (Nat.pos_of_ne_zero hn)]
      by_cases hq : n / 10 = 0
      · exact absurd hq hdiv
      · rw [decChars_pos (n / 10) hq]
        simp [List.reverse_cons]

theorem repr_eq_decChars (n : Nat) : Nat.repr n = (decChars n).asString := by
  unfold Nat.repr Nat.toDigits
  rw [toDigitsCore_eq_decChars (n + 1) n [] (Nat.lt_succ_self n), List.append_nil]

theorem decChars_all_digit (n : Nat) :
    ∀ c ∈ decChars n, ∃ d, d < 10 ∧ c = Nat.digitChar d := by
  intro c hc
  by_cases hn : n = 0
  · subst hn
    have : c = '0' := by simpa [decChars_zero] using hc
    exact ⟨0, by norm_num, this⟩
  · rw [decChars_pos n hn, List.mem_reverse, List.mem_map] at hc
    obtain ⟨d, hd, hdc⟩ := hc
    exact ⟨d, Nat.digits_lt_base (by norm_num) hd, hdc.symm⟩

theorem underscore_not_mem_decChars (n : Nat) : '_' ∉ decChars n := by
  intro h
  obtain ⟨d, hd, hdc⟩ := decChars_all_digit n '_' h
  exact digitChar_ne_underscore d hd hdc.symm

theorem dash_not_mem_decChars (n : Nat) : '-' ∉ decChars n := by
  intro h
  obtain ⟨d, hd, hdc⟩ := decChars_all_digit n '-' h
  exact digitChar_ne_dash d hd hdc.symm

theorem map_digitChar_inj (l1 : List Nat) :
    ∀ l2 : List Nat, (∀ x ∈ l1, x < 10) → (∀ x ∈ l2, x < 10) →
      l1.map Nat.digitChar = l2.map Nat.digitChar → l1 = l2 := by
  induction l1 with
  | nil =>
    intro l2 _ _ h
    cases l2 with
    | nil => rfl
    | cons b bs => simp at h
  | cons a as ih =>
    intro l2 h1 h2 h
    cases l2 with
    | nil => simp at h
    | cons b bs =>
      simp only [List.map_cons, List.cons.injEq] at h
      have hab : a = b :=
        digitChar_inj_lt a b (h1 a (by simp)) (h2 b (by simp)) h.1
      have := ih bs (fun x hx => h1 x (by simp [hx])) (fun x hx => h2 x (by simp [hx])) h.2
      rw [hab, this]

theorem decChars_inj (m n : Nat) (h : decChars m = decChars n) : m = n := by
  by_cases hm : m = 0 <;> by_cases hn : n = 0
  · rw [hm, hn]
  · exfalso
    rw [hm, decChars_zero, decChars_pos n hn] at h
    have hrev : (Nat.digits 10 n).map Nat.digitChar = ['0'] := by
      rw [← List.reverse_reverse ((Nat.digits 10 n).map Nat.digitChar), ← h]
      rfl
    cases hdig : Nat.digits 10 n with
    | nil => rw [hdig] at hrev; simp at hrev
    | cons d ds =>
      rw [hdig] at hrev
      simp only [List.map_cons, List.cons.injEq] at hrev
      have hds : ds = [] := by simpa using hrev.2
      have hd10 : d < 10 := Nat.digits_lt_base (by norm_num) (by rw [hdig]; simp)
      have hd0 : d = 0 := digitChar_inj_lt d 0 hd10 (by norm_num) (by simpa using hrev.1)
      have hdigs0 : Nat.digits 10 n = [0] := by rw [hdig, hds, hd0]
      have hzero := congrArg (Nat.ofDigits 10) hdigs0
      rw [Nat.ofDigits_digits] at hzero
      simp [Nat.ofDigits] at hzero
      exact hn hzero
  · exfalso
    rw [hn, decChars_zero, decChars_pos m hm] at h
    have hrev : (Nat.digits 10 m).map Nat.digitChar = ['0'] := by
      rw [← List.reverse_reverse ((Nat.digits 10 m).map Nat.digitChar), h]
      rfl
    cases hdig : Nat.digits 10 m with
    | nil => rw [hdig] at hrev; simp at hrev
    | cons d ds =>
      rw [hdig] at hrev
      simp only [List.map_cons, List.cons.injEq] at hrev
      have hds : ds = [] := by simpa using hrev.2
      have hd10 : d < 10 := Nat.digits_lt_base (by norm_num) (by rw [hdig]; simp)
      have hd0 : d = 0 := digitChar_inj_lt d 0 hd10 (by norm_num) (by simpa using hrev.1)
      have hdigs0 : Nat.digits 10 m = [0] := by rw [hdig, hds, hd0]
      have hzero := congrArg (Nat.ofDigits 10) hdigs0
      rw [Nat.ofDigits_digits] at hzero
      simp [Nat.ofDigits] at hzero
      exact hm hzero
  · rw [decChars_pos m hm, decChars_pos n hn] at h
    have hmaps := List.reverse_injective h
    have hdigs := map_digitChar_inj (Nat.digits 10 m) (Nat.digits 10 n)
      (fun x hx => Nat.digits_lt_base (by norm_num) hx)
      (fun x hx => Nat.digits_lt_base (by norm_num) hx) hmaps
    have := congrArg (Nat.ofDigits 10) hdigs
    rwa [Nat.ofDigits_digits, Nat.ofDigits_digits] at this

theorem nat_repr_inj (m n : Nat) (h : Nat.repr m = Nat.repr n) : m = n := by
  rw [repr_eq_decChars, repr_eq_decChars] at h
  exact decChars_inj m n (List.asString_inj.mp h)

end StreamlitApp

namespace StreamlitApp

theorem underscore_not_mem_int_repr (i : Int) : '_' ∉ (Int.repr i).data := by
  cases i with
  | ofNat m =>
    show '_' ∉ (Nat.repr m).data
    rw [repr_eq_decChars]
    exact underscore_not_mem_decChars m
  | negSucc m =>
    show '_' ∉ ("-" ++ Nat.repr (m + 1)).data
    rw [String.data_append]
    intro hmem
    rcases List.mem_append.mp hmem with hc | hc
    · simp at hc
    · rw [repr_eq_decChars] at hc
      exact underscore_not_mem_decChars (m + 1) hc

theorem int_repr_inj (i j : Int) (h : Int.repr i = Int.repr j) : i = j := by
  cases i with
  | ofNat m =>
    cases j with
    | ofNat n => exact congrArg Int.ofNat (nat_repr_inj m n h)
    | negSucc n =>
      exfalso
      have hd := congrArg String.data h
      have hlhs : (Int.repr (Int.ofNat m)).data = decChars m := by
        show (Nat.repr m).data = decChars m
        rw [repr_eq_decChars]
        rfl
      have hrhs : (Int.repr (Int.negSucc n)).data = '-' :: (Nat.repr (n + 1)).data := by
        show ("-" ++ Nat.repr (n + 1)).data = _
        rw [String.data_append]
        rfl
      rw [hlhs, hrhs] at hd
      exact dash_not_mem_decChars m (hd ▸ List.mem_cons_self '-' (Nat.repr (n + 1)).data)
  | negSucc m =>
    cases j with
    | ofNat n =>
      exfalso
      have hd := congrArg String.data h
      have hlhs : (Int.repr (Int.negSucc m)).data = '-' :: (Nat.repr (m + 1)).data := by
        show ("-" ++ Nat.repr (m + 1)).data = _
        rw [String.data_append]
        rfl
      have hrhs : (Int.repr (Int.ofNat n)).data = decChars n := by
        show (Nat.repr n).data = decChars n
        rw [repr_eq_decChars]
        rfl
      rw [hlhs, hrhs] at hd
      exact dash_not_mem_decChars n (hd ▸ List.mem_cons_self '-' (Nat.repr (m + 1)).data)
    | negSucc n =>
      have hd := congrArg String.data h
      have hlhs : (Int.repr (Int.negSucc m)).data = '-' :: (Nat.repr (m + 1)).data := by
        show ("-" ++ Nat.repr (m + 1)).data = _
        rw [String.data_append]
        rfl
      have hrhs : (Int.repr (Int.negSucc n)).data = '-' :: (Nat.repr (n + 1)).data := by
        show ("-" ++ Nat.repr (n + 1)).data = _
        rw [String.data_append]
        rfl
      rw [hlhs, hrhs] at hd
      have hdata : (Nat.repr (m + 1)).data = (Nat.repr (n + 1)).data := by
        simpa using hd
      have hsucc := nat_repr_inj (m + 1) (n + 1) (String.ext hdata)
      have hmn : m = n := by omega
      rw [hmn]

theorem append_underscore_inj (l1 : List Char) :
    ∀ (l2 r1 r2 : List Char), '_' ∉ l1 → '_' ∉ l2 →
      l1 ++ '_' :: r1 = l2 ++ '_' :: r2 → l1 = l2 ∧ r1 = r2 := by
  induction l1 with
  | nil =>
    intro l2 r1 r2 h1 h2 heq
    cases l2 with
    | nil => simpa using heq
    | cons b bs =>
      exfalso
      simp only [List.nil_append, List.cons_append, List.cons.injEq] at heq
      exact h2 (heq.1 ▸ List.mem_cons_self b bs)
  | cons a as ih =>
    intro l2 r1 r2 h1 h2 heq
    cases l2 with
    | nil =>
      exfalso
      simp only [List.cons_append, List.nil_append, List.cons.injEq] at heq
      exact h1 (heq.1 ▸ List.mem_cons_self a as)
    | cons b bs =>
      simp only [List.cons_append, List.cons.injEq] at heq
      obtain ⟨hab, hrest⟩ := heq
      have h1' : '_' ∉ as := fun hc => h1 (List.mem_cons_of_mem a hc)
      have h2' : '_' ∉ bs := fun hc => h2 (List.mem_cons_of_mem b hc)
      obtain ⟨hl, hr⟩ := ih bs r1 r2 h1' h2' hrest
      exact ⟨by rw [hab, hl], hr⟩

theorem get_cache_key_eq_iff (pyHash : String → Int) (q1 q2 : String) (sz1 sz2 : Nat) :
    QueryCache.get_cache_key pyHash q1 sz1 = QueryCache.get_cache_key pyHash q2 sz2 ↔
      (pyHash q1 = pyHash q2 ∧ sz1 = sz2) := by
  constructor
  · intro h
    unfold QueryCache.get_cache_key at h
    have hd := congrArg String.data h
    simp only [String.data_append] at hd
    have hd' : (Int.repr (pyHash q1)).data ++ '_' :: (Nat.repr sz1).data =
        (Int.repr (pyHash q2)).data ++ '_' :: (Nat.repr sz2).data := by
      simpa [List.append_assoc] using hd
    obtain ⟨ha, hb⟩ := append_underscore_inj _ _ _ _
      (underscore_not_mem_int_repr _) (underscore_not_mem_int_repr _) hd'
    exact ⟨int_repr_inj _ _ (String.ext ha), nat_repr_inj _ _ (String.ext hb)⟩
  · rintro ⟨h1, h2⟩
    unfold QueryCache.get_cache_key
    rw [h1, h2]

theorem hash_has_collision (h : String → Int) (hr : ∀ t, h t ∈ hashRange) :
    ∃ q1 q2 : String, q1 ≠ q2 ∧ h q1 = h q2 := by
  have hcard : Fintype.card { x // x ∈ hashRange } < Fintype.card (Fin (2 ^ 64 + 1)) := by
    rw [Fintype.card_coe, Fintype.card_fin]
    unfold hashRange
    rw [Int.card_Icc]
    norm_num
  obtain ⟨i, j, hne, hfe⟩ := Fintype.exists_ne_map_eq_of_card_lt
    (fun i : Fin (2 ^ 64 + 1) =>
      (⟨h ((List.replicate i.val 'a').asString), hr _⟩ : { x // x ∈ hashRange })) hcard
  refine ⟨(List.replicate i.val 'a').asString, (List.replicate j.val 'a').asString, ?_, ?_⟩
  · intro hqe
    apply hne
    have hlists := List.asString_inj.mp hqe
    have hlen := congrArg List.length hlists
    simp only [List.length_replicate] at hlen
    exact Fin.ext hlen
  · exact congrArg Subtype.val hfe

end StreamlitApp

namespace StreamlitApp

/-- C9 counterexample: the claim `cacheKeyAlwaysDistinct` — distinct
(query, size) pairs always derive distinct cache keys, for every admissible
64-bit process hash — is false: under a hash seed on which two texts collide
(exhibited here at the admissible function that hashes every string to 0,
as CPython's randomized SipHash does on some pair of strings for every
seed — see `hash_has_collision`), the textually distinct queries "a" and "b"
with the same size derive the same key. -/
theorem c9_cache_key_not_always_distinct : ¬ cacheKeyAlwaysDistinct := by
  intro hall
  have hrange : ∀ t : String, (fun _ : String => (0 : Int)) t ∈ hashRange := by
    intro t
    unfold hashRange
    rw [Finset.mem_Icc]
    constructor <;> norm_num
  exact hall (fun _ => 0) hrange "a" "b" 10 10 (Or.inl (by decide)) rfl

/-- C9 amended: the cache key determines and is determined by the pair
(Python hash of the query text, requested size): two pairs share a key
exactly when their query hashes and sizes are both equal.  Hence pairs
differing in size never share an entry, and no normalization is applied
(identical text always hashes identically); but textually distinct queries
with colliding hashes — which exist for every 64-bit hash function, hence for
every CPython hash seed — do share an entry whenever the sizes match. -/
theorem c9_cache_key_collision_exact (pyHash : String → Int) :
    (∀ (q1 q2 : String) (sz1 sz2 : Nat),
      QueryCache.get_cache_key pyHash q1 sz1 = QueryCache.get_cache_key pyHash q2 sz2 ↔
        (pyHash q1 = pyHash q2 ∧ sz1 = sz2)) ∧
    ((∀ t : String, pyHash t ∈ hashRange) →
      ∃ q1 q2 : String, q1 ≠ q2 ∧ ∀ sz : Nat,
        QueryCache.get_cache_key pyHash q1 sz = QueryCache.get_cache_key pyHash q2 sz) := by
  refine ⟨fun q1 q2 sz1 sz2 => get_cache_key_eq_iff pyHash q1 q2 sz1 sz2, fun hr => ?_⟩
  obtain ⟨q1, q2, hne, hcoll⟩ := hash_has_collision pyHash hr
  exact ⟨q1, q2, hne, fun sz =>
    (get_cache_key_eq_iff pyHash q1 q2 sz sz).mpr ⟨hcoll, rfl⟩⟩

/-- Concrete instantiation of `c9_cache_key_collision_exact` at the constant
hash: equal sizes with colliding hashes share a key, distinct sizes never do,
and the collision existential is realized. -/
theorem c9_cache_key_collision_exact_witness :
    QueryCache.get_cache_key (fun _ => (0 : Int)) "status 500" 10 =
      QueryCache.get_cache_key (fun _ => (0 : Int)) "STATUS 500" 10 ∧
    QueryCache.get_cache_key (fun _ => (0 : Int)) "status 500" 10 ≠
      QueryCache.get_cache_key (fun _ => (0 : Int)) "status 500" 25 ∧
    (∃ q1 q2 : String, q1 ≠ q2 ∧ ∀ sz : Nat,
      QueryCache.get_cache_key (fun _ => (0 : Int)) q1 sz =
        QueryCache.get_cache_key (fun _ => (0 : Int)) q2 sz) := by
  have h := c9_cache_key_collision_exact (fun _ => (0 : Int))
  refine ⟨(h.1 "status 500" "STATUS 500" 10 10).mpr ⟨rfl, rfl⟩, ?_, ?_⟩
  · intro hkey
    have := ((h.1 "status 500" "status 500" 10 25).mp hkey).2
    omega
  · exact h.2 (by
      intro t
      unfold hashRange
      rw [Finset.mem_Icc]
      constructor <;> norm_num)

end StreamlitApp
